import Mathlib

/-!
# Verification of the cells-renderer core

A shallow embedding, in Lean, of the core of the `cells-renderer` crate:
the RGBA framebuffer (`src/image.rs`), the grid overlay index generation
(`src/app/app_impl.rs`), the fixed-rate update scheduler and control-key
handling (`src/app/app_impl.rs`), the cursor-to-cell coordinate transform
(`src/app/app_impl.rs`), the painter decorator (`src/util/painter.rs`),
and the resize path (`src/app/app_impl.rs`).

Machine integers (`u32`, `i32`, `usize`) are modelled as `Nat`/`Int` with
explicit wrap / saturation / checked-arithmetic functions at the places the
source casts between them.  `f64`/`f32` arithmetic in the coordinate
transform is modelled over `ℚ` (exact arithmetic with the same operation
structure; IEEE rounding is not modelled).  Time (`Instant`/`Duration`) is
modelled as `Nat` nanoseconds; `Instant` subtraction saturates at zero,
matching `Nat` truncated subtraction.
-/

set_option maxHeartbeats 1000000

namespace CellsRenderer

/-! ## Framebuffer (`WorldImage`, src/image.rs) -/

/-- RGBA framebuffer (`WorldImage` in `src/image.rs`): a width, a height and
a flat byte buffer of length `width * height * 4`, row-major, 4 bytes
(R,G,B,A) per cell.  Bytes are modelled as `Nat`. -/
structure WorldImage where
  width : Nat
  height : Nat
  buf : List Nat
  deriving Repr, DecidableEq

namespace WorldImage

/-- `WorldImage::CHANNELS`. -/
def CHANNELS : Nat := 4

/-- `WorldImage::calc_offset`: byte offset of cell `(x, y)` when it is in
bounds, `none` otherwise. -/
def calcOffset (img : WorldImage) (x y : Nat) : Option Nat :=
  if x < img.width ∧ y < img.height then
    some ((x + y * img.width) * 4)
  else
    none

/-- `WorldImage::get`: the 4-byte RGBA slice of cell `(x, y)`, or `none`
out of bounds.  The Rust slice `&buf[i..i+4]` is the byte window modelled
by `drop`/`take`. -/
def get (img : WorldImage) (x y : Nat) : Option (List Nat) :=
  (img.calcOffset x y).map fun i => (img.buf.drop i).take CHANNELS

/-- Writing a 4-byte color through the slice returned by
`WorldImage::get_mut`: when `(x, y)` is out of bounds `get_mut` returns
`None` and the image is left unchanged; otherwise the 4-byte window at the
computed offset is replaced. -/
def setCell (img : WorldImage) (x y : Nat) (c : List Nat) : WorldImage :=
  match img.calcOffset x y with
  | none => img
  | some i =>
      { img with buf := img.buf.take i ++ c.take CHANNELS ++ img.buf.drop (i + CHANNELS) }

end WorldImage

/-! ## Grid overlay index generation (src/app/app_impl.rs) -/

/-- `grid_indices`: for a `world_width × world_height` grid, the flat index
list of the `world_width + world_height + 2` overlay bars, six indices per
4-vertex bar. -/
def gridIndices (worldWidth worldHeight : Nat) : List Nat :=
  (List.range (worldWidth + worldHeight + 2)).flatMap fun i =>
    let i := i * 4
    [i, i + 1, i + 2, i + 2, i + 1, i + 3]

/-- `grid_indices_range`: the draw range handed to the rasterizer — the
full index range when the overlay is enabled, the first 24 indices (the
4 border bars) when disabled.  It takes only the stored index count and
the flag, so no geometry is regenerated. -/
def gridIndicesRange (nIndices : Nat) (gridEnabled : Bool) : Nat × Nat :=
  if gridEnabled then (0, nIndices) else (0, 24)

/-! ## Update scheduler (`AppImpl::update`, src/app/app_impl.rs) -/

/-- The scheduler-relevant state of `AppImpl`: the last scheduled update
time, the update interval (both in nanoseconds) and the pause flag. -/
structure Sched where
  lastUpdate : Nat
  interval : Nat
  paused : Bool
  deriving Repr, DecidableEq

/-- `AppImpl::update` (one scheduler poll): returns the new scheduler state
and the number of `World::update` invocations made by this poll (0 or 1).
`now - lastUpdate` saturates at zero like `Instant` subtraction;
`Instant::checked_add` cannot overflow in the `Nat` time model, so
`last_update` always advances by exactly one interval on a firing poll. -/
def schedUpdate (s : Sched) (now : Nat) : Sched × Nat :=
  let dt := now - s.lastUpdate
  if dt < s.interval then
    (s, 0)
  else
    let s1 : Sched := { s with lastUpdate := s.lastUpdate + s.interval }
    if s.paused then (s1, 0) else (s1, 1)

/-- A whole run: fold `AppImpl::update` over a list of poll timestamps,
accumulating the total number of `World::update` invocations. -/
def schedRun (s : Sched) : List Nat → Sched × Nat
  | [] => (s, 0)
  | t :: ts =>
      let r := schedUpdate s t
      let rest := schedRun r.1 ts
      (rest.1, r.2 + rest.2)

/-! ### Scheduler helper lemmas -/

theorem schedUpdate_fst (s : Sched) (now : Nat) :
    (schedUpdate s now).1 =
      if now - s.lastUpdate < s.interval then s
      else { s with lastUpdate := s.lastUpdate + s.interval } := by
  by_cases h : now - s.lastUpdate < s.interval <;> by_cases hp : s.paused <;>
    simp [schedUpdate, h, hp]

theorem schedUpdate_snd (s : Sched) (now : Nat) :
    (schedUpdate s now).2 =
      if now - s.lastUpdate < s.interval then 0
      else if s.paused then 0 else 1 := by
  by_cases h : now - s.lastUpdate < s.interval <;> by_cases hp : s.paused <;>
    simp [schedUpdate, h, hp]

theorem schedRun_cons_fst (s : Sched) (t : Nat) (ts : List Nat) :
    (schedRun s (t :: ts)).1 = (schedRun (schedUpdate s t).1 ts).1 := rfl

theorem schedRun_cons_snd (s : Sched) (t : Nat) (ts : List Nat) :
    (schedRun s (t :: ts)).2 = (schedUpdate s t).2 + (schedRun (schedUpdate s t).1 ts).2 := rfl

theorem schedRun_interval (polls : List Nat) :
    ∀ s : Sched, (schedRun s polls).1.interval = s.interval := by
  induction polls with
  | nil => intro s; simp [schedRun]
  | cons t ts ih =>
      intro s
      rw [schedRun_cons_fst, schedUpdate_fst]
      by_cases hdt : t - s.lastUpdate < s.interval
      · rw [if_pos hdt]; exact ih s
      · rw [if_neg hdt]; exact ih _

/-- Each advance call accounts for one interval added to `lastUpdate`:
the final `lastUpdate` is at least the initial one plus (number of calls)
times the interval. -/
theorem schedRun_lastUpdate_ge (polls : List Nat) :
    ∀ s : Sched,
      s.lastUpdate + (schedRun s polls).2 * s.interval ≤ (schedRun s polls).1.lastUpdate := by
  induction polls with
  | nil => intro s; simp [schedRun]
  | cons t ts ih =>
      intro s
      rw [schedRun_cons_fst, schedRun_cons_snd, schedUpdate_fst, schedUpdate_snd]
      by_cases hdt : t - s.lastUpdate < s.interval
      · simp only [if_pos hdt, Nat.zero_add]
        exact ih s
      · simp only [if_neg hdt]
        have h1 : s.lastUpdate + s.interval +
            (schedRun { s with lastUpdate := s.lastUpdate + s.interval } ts).2 * s.interval ≤
            (schedRun { s with lastUpdate := s.lastUpdate + s.interval } ts).1.lastUpdate :=
          ih { s with lastUpdate := s.lastUpdate + s.interval }
        by_cases hp : s.paused
        · rw [if_pos hp, Nat.zero_add]
          linarith
        · rw [if_neg hp, Nat.add_mul, Nat.one_mul]
          linarith

/-- `lastUpdate` only moves to (old value + interval) when a poll at time
`t ≥ lastUpdate + interval` fires, so it never exceeds the larger of its
initial value and the latest poll time. -/
theorem schedRun_lastUpdate_le (polls : List Nat) (T : Nat) :
    ∀ s : Sched, 0 < s.interval → (∀ t ∈ polls, t ≤ T) →
      (schedRun s polls).1.lastUpdate ≤ max s.lastUpdate T := by
  induction polls with
  | nil => intro s _ _; simp [schedRun]
  | cons t ts ih =>
      intro s hI hT
      rw [schedRun_cons_fst, schedUpdate_fst]
      have ht : t ≤ T := hT t (by simp)
      have hT' : ∀ u ∈ ts, u ≤ T := fun u hu => hT u (by simp [hu])
      by_cases hdt : t - s.lastUpdate < s.interval
      · rw [if_pos hdt]; exact ih s hI hT'
      · rw [if_neg hdt]
        have hfire : s.lastUpdate + s.interval ≤ t := by omega
        have h1 : (schedRun { s with lastUpdate := s.lastUpdate + s.interval } ts).1.lastUpdate ≤
            max (s.lastUpdate + s.interval) T :=
          ih { s with lastUpdate := s.lastUpdate + s.interval } hI hT'
        omega

theorem schedRun_count_bound (polls : List Nat) (T : Nat) (s : Sched)
    (hI : 0 < s.interval) (hT : ∀ t ∈ polls, t ≤ T) :
    (schedRun s polls).2 ≤ (T - s.lastUpdate) / s.interval + 1 := by
  rcases Nat.eq_zero_or_pos (schedRun s polls).2 with h0 | h0
  · rw [h0]; exact Nat.zero_le _
  · have h3 : s.lastUpdate + (schedRun s polls).2 * s.interval ≤ max s.lastUpdate T :=
      le_trans (schedRun_lastUpdate_ge polls s) (schedRun_lastUpdate_le polls T s hI hT)
    have h5 : (schedRun s polls).2 * s.interval ≤ T - s.lastUpdate := by
      have hPpos : 0 < (schedRun s polls).2 * s.interval := Nat.mul_pos h0 hI
      generalize hP : (schedRun s polls).2 * s.interval = P at h3 hPpos ⊢
      omega
    have h6 : (schedRun s polls).2 ≤ (T - s.lastUpdate) / s.interval :=
      (Nat.le_div_iff_mul_le hI).2 h5
    exact le_trans h6 (Nat.le_succ _)

/-! ## Claim theorems: framebuffer, grid indices, scheduler -/

theorem worldImage_offset_bound (W H x y : Nat) (hx : x < W) (hy : y < H) :
    (x + y * W) * 4 + 4 ≤ W * H * 4 := by
  have h1 : x + y * W + 1 ≤ W * H := by
    calc x + y * W + 1 ≤ W + y * W := by omega
    _ = (y + 1) * W := by ring
    _ ≤ H * W := Nat.mul_le_mul_right W (by omega)
    _ = W * H := Nat.mul_comm H W
  calc (x + y * W) * 4 + 4 = (x + y * W + 1) * 4 := by ring
  _ ≤ W * H * 4 := Nat.mul_le_mul_right 4 h1

/-- C3: for an image with `W > 0`, `H > 0` and a buffer of length `W*H*4`,
`get`/`get_mut` return `some` of the 4-byte slice at byte offset
`(x + y*W)*4` exactly when `x < W ∧ y < H` and `none` otherwise; the
returned slice really has 4 bytes (the Rust slicing `buf[i..i+4]` cannot
panic), and an out-of-bounds write through `get_mut` leaves width, height
and buffer unchanged. -/
theorem worldImage_get_spec (img : WorldImage) (x y : Nat) (c : List Nat)
    (hW : 0 < img.width) (hH : 0 < img.height)
    (hlen : img.buf.length = img.width * img.height * 4) :
    (∀ s, img.get x y = some s ↔
      x < img.width ∧ y < img.height ∧
        s = (img.buf.drop ((x + y * img.width) * 4)).take 4)
    ∧ (img.get x y = none ↔ ¬(x < img.width ∧ y < img.height))
    ∧ (x < img.width → y < img.height →
        ∃ s, img.get x y = some s ∧ s.length = 4)
    ∧ (¬(x < img.width ∧ y < img.height) → img.setCell x y c = img) := by
  by_cases hb : x < img.width ∧ y < img.height
  · refine ⟨?_, ?_, ?_, ?_⟩
    · intro s
      simp [WorldImage.get, WorldImage.calcOffset, WorldImage.CHANNELS, hb, hb.1, hb.2, eq_comm]
    · simp [WorldImage.get, WorldImage.calcOffset, hb]
    · intro hx hy
      refine ⟨(img.buf.drop ((x + y * img.width) * 4)).take 4, ?_, ?_⟩
      · simp [WorldImage.get, WorldImage.calcOffset, WorldImage.CHANNELS, hb]
      · have hoff := worldImage_offset_bound img.width img.height x y hx hy
        rw [List.length_take, List.length_drop, hlen]
        omega
    · intro h; exact absurd hb h
  · refine ⟨?_, ?_, ?_, ?_⟩
    · intro s
      simp [WorldImage.get, WorldImage.calcOffset, hb]
      intro hx hy
      exact absurd ⟨hx, hy⟩ hb
    · simp [WorldImage.get, WorldImage.calcOffset, hb]
    · intro hx hy; exact absurd ⟨hx, hy⟩ hb
    · intro _
      simp [WorldImage.setCell, WorldImage.calcOffset, hb]

/-- Witness for `worldImage_get_spec` on a concrete 2×2 image. -/
theorem worldImage_get_spec_witness :
    (0 < (WorldImage.mk 2 2 (List.replicate 16 0)).width ∧
      0 < (WorldImage.mk 2 2 (List.replicate 16 0)).height ∧
      (WorldImage.mk 2 2 (List.replicate 16 0)).buf.length =
        (WorldImage.mk 2 2 (List.replicate 16 0)).width *
          (WorldImage.mk 2 2 (List.replicate 16 0)).height * 4)
    ∧ ((∀ s, (WorldImage.mk 2 2 (List.replicate 16 0)).get 1 1 = some s ↔
          1 < (WorldImage.mk 2 2 (List.replicate 16 0)).width ∧
            1 < (WorldImage.mk 2 2 (List.replicate 16 0)).height ∧
            s = (((WorldImage.mk 2 2 (List.replicate 16 0)).buf.drop
              ((1 + 1 * (WorldImage.mk 2 2 (List.replicate 16 0)).width) * 4)).take 4))
      ∧ ((WorldImage.mk 2 2 (List.replicate 16 0)).get 1 1 = none ↔
          ¬(1 < (WorldImage.mk 2 2 (List.replicate 16 0)).width ∧
            1 < (WorldImage.mk 2 2 (List.replicate 16 0)).height))
      ∧ (1 < (WorldImage.mk 2 2 (List.replicate 16 0)).width →
          1 < (WorldImage.mk 2 2 (List.replicate 16 0)).height →
          ∃ s, (WorldImage.mk 2 2 (List.replicate 16 0)).get 1 1 = some s ∧ s.length = 4)
      ∧ (¬(1 < (WorldImage.mk 2 2 (List.replicate 16 0)).width ∧
            1 < (WorldImage.mk 2 2 (List.replicate 16 0)).height) →
          (WorldImage.mk 2 2 (List.replicate 16 0)).setCell 1 1 [9, 9, 9, 9] =
            WorldImage.mk 2 2 (List.replicate 16 0))) :=
  ⟨⟨by decide, by decide, by decide⟩,
    worldImage_get_spec (WorldImage.mk 2 2 (List.replicate 16 0)) 1 1 [9, 9, 9, 9]
      (by decide) (by decide) (by decide)⟩

theorem flatMap_blocks_length (blk : Nat → List Nat) (hblk : ∀ i, (blk i).length = 6) :
    ∀ (n s : Nat), ((List.range' s n).flatMap blk).length = 6 * n := by
  intro n
  induction n with
  | zero => intro s; simp
  | succ n ih =>
      intro s
      rw [List.range'_succ, List.flatMap_cons, List.length_append, hblk, ih]
      ring

theorem flatMap_blocks_drop (blk : Nat → List Nat) (hblk : ∀ i, (blk i).length = 6) :
    ∀ (k n s : Nat), k < n →
      ((List.range' s n).flatMap blk).drop (6 * k) =
        (List.range' (s + k) (n - k)).flatMap blk := by
  intro k
  induction k with
  | zero => intro n s _; simp
  | succ k ih =>
      intro n s hk
      match n, hk with
      | n + 1, hk =>
          rw [List.range'_succ, List.flatMap_cons]
          have h6 : 6 * (k + 1) = (blk s).length + 6 * k := by rw [hblk]; ring
          rw [h6, ← List.drop_drop, List.drop_left, ih n (s + 1) (by omega)]
          have hs : s + 1 + k = s + (k + 1) := by ring
          have hn : n - k = n + 1 - (k + 1) := by omega
          rw [hs, hn]

theorem flatMap_blocks_take (blk : Nat → List Nat) (hblk : ∀ i, (blk i).length = 6)
    (k n s : Nat) (hk : k < n) :
    (((List.range' s n).flatMap blk).drop (6 * k)).take 6 = blk (s + k) := by
  rw [flatMap_blocks_drop blk hblk k n s hk]
  have hm : ∃ m, n - k = m + 1 := ⟨n - k - 1, by omega⟩
  obtain ⟨m, hm⟩ := hm
  rw [hm, List.range'_succ, List.flatMap_cons, List.take_left' (hblk (s + k))]

/-- C8: `grid_indices` produces `6*(Gw+Gh+2)` indices, where the `k`-th
4-vertex bar contributes the pattern `[4k, 4k+1, 4k+2, 4k+2, 4k+1, 4k+3]`,
and `grid_indices_range` selects the full range when the overlay is enabled
and exactly `0..24` when it is disabled, from the stored index count alone
(no geometry is regenerated). -/
theorem gridIndices_spec (w h : Nat) :
    (gridIndices w h).length = 6 * (w + h + 2)
    ∧ (∀ k, k < w + h + 2 →
        (((gridIndices w h).drop (6 * k)).take 6) =
          [4 * k, 4 * k + 1, 4 * k + 2, 4 * k + 2, 4 * k + 1, 4 * k + 3])
    ∧ gridIndicesRange ((gridIndices w h).length) true = (0, 6 * (w + h + 2))
    ∧ gridIndicesRange ((gridIndices w h).length) false = (0, 24) := by
  have hgi : gridIndices w h =
      (List.range' 0 (w + h + 2)).flatMap fun i =>
        [i * 4, i * 4 + 1, i * 4 + 2, i * 4 + 2, i * 4 + 1, i * 4 + 3] := by
    rw [gridIndices, List.range_eq_range']
  have hblk : ∀ i : Nat,
      ([i * 4, i * 4 + 1, i * 4 + 2, i * 4 + 2, i * 4 + 1, i * 4 + 3] : List Nat).length = 6 :=
    fun i => rfl
  have hlen : (gridIndices w h).length = 6 * (w + h + 2) := by
    rw [hgi, flatMap_blocks_length _ hblk]
  refine ⟨hlen, ?_, ?_, ?_⟩
  · intro k hk
    rw [hgi, flatMap_blocks_take _ hblk k (w + h + 2) 0 hk]
    have h4 : ∀ m : Nat, m * 4 = 4 * m := fun m => Nat.mul_comm m 4
    simp [h4]
  · rw [hlen]; rfl
  · rfl

/-- Witness for `gridIndices_spec` on a 2×3 grid. -/
theorem gridIndices_spec_witness :
    (gridIndices 2 3).length = 6 * (2 + 3 + 2)
    ∧ (∀ k, k < 2 + 3 + 2 →
        (((gridIndices 2 3).drop (6 * k)).take 6) =
          [4 * k, 4 * k + 1, 4 * k + 2, 4 * k + 2, 4 * k + 1, 4 * k + 3])
    ∧ gridIndicesRange ((gridIndices 2 3).length) true = (0, 6 * (2 + 3 + 2))
    ∧ gridIndicesRange ((gridIndices 2 3).length) false = (0, 24) :=
  gridIndices_spec 2 3

/-- C2: one scheduler poll makes at most one `World::update` call; a poll
with elapsed time below the interval changes nothing and makes no call; a
paused poll makes no call; a firing poll advances `last_update` by exactly
one interval from its previous scheduled value; and over any run whose
polls all happen by time `T`, the total number of calls never exceeds
`floor((T - initial last_update) / interval) + 1`. -/
theorem scheduler_spec (s : Sched) (now : Nat) (polls : List Nat) (T : Nat)
    (hI : 0 < s.interval) (hT : ∀ t ∈ polls, t ≤ T) :
    (schedUpdate s now).2 ≤ 1
    ∧ (now - s.lastUpdate < s.interval → schedUpdate s now = (s, 0))
    ∧ (s.paused = true → (schedUpdate s now).2 = 0)
    ∧ (s.interval ≤ now - s.lastUpdate →
        (schedUpdate s now).1.lastUpdate = s.lastUpdate + s.interval)
    ∧ (schedRun s polls).2 ≤ (T - s.lastUpdate) / s.interval + 1 := by
  refine ⟨?_, ?_, ?_, ?_, schedRun_count_bound polls T s hI hT⟩
  · rw [schedUpdate_snd]
    by_cases hdt : now - s.lastUpdate < s.interval
    · rw [if_pos hdt]; omega
    · rw [if_neg hdt]; by_cases hp : s.paused
      · rw [if_pos hp]; omega
      · rw [if_neg hp]
  · intro hdt
    unfold schedUpdate
    simp [hdt]
  · intro hp
    rw [schedUpdate_snd]
    by_cases hdt : now - s.lastUpdate < s.interval
    · rw [if_pos hdt]
    · rw [if_neg hdt, if_pos hp]
  · intro hdt
    rw [schedUpdate_fst, if_neg (by omega)]

/-- Witness for `scheduler_spec`: interval 5 ns starting at time 0, a poll
at time 7, a run with polls at 5 and 12 all by `T = 12`. -/
theorem scheduler_spec_witness :
    (0 < (Sched.mk 0 5 false).interval ∧ ∀ t ∈ [5, 12], t ≤ 12)
    ∧ ((schedUpdate (Sched.mk 0 5 false) 7).2 ≤ 1
      ∧ (7 - (Sched.mk 0 5 false).lastUpdate < (Sched.mk 0 5 false).interval →
          schedUpdate (Sched.mk 0 5 false) 7 = (Sched.mk 0 5 false, 0))
      ∧ ((Sched.mk 0 5 false).paused = true →
          (schedUpdate (Sched.mk 0 5 false) 7).2 = 0)
      ∧ ((Sched.mk 0 5 false).interval ≤ 7 - (Sched.mk 0 5 false).lastUpdate →
          (schedUpdate (Sched.mk 0 5 false) 7).1.lastUpdate =
            (Sched.mk 0 5 false).lastUpdate + (Sched.mk 0 5 false).interval)
      ∧ (schedRun (Sched.mk 0 5 false) [5, 12]).2 ≤
          (12 - (Sched.mk 0 5 false).lastUpdate) / (Sched.mk 0 5 false).interval + 1) :=
  ⟨⟨by decide, by decide⟩,
    scheduler_spec (Sched.mk 0 5 false) 7 [5, 12] 12 (by decide) (by decide)⟩

/-! ## Coordinate transform (`WorldTransform`, src/app/app_impl.rs)

`f64` arithmetic is modelled over `ℚ`.  The Rust `as u32` cast of a
nonnegative finite `f64` truncates toward zero (= floor) and saturates at
`u32::MAX`; of a negative value it saturates at 0. -/

/-- Saturating `as u32` cast of an `f64` value, on exact rationals. -/
def q2u32 (q : ℚ) : Nat :=
  if q < 0 then 0 else min (Int.toNat (Int.floor q)) (2 ^ 32 - 1)

/-- `WorldTransform` (src/app/app_impl.rs): letterboxed-viewport origin,
far corner (unused by `translate_position`, kept as `_max` in the source)
and per-cell scale, in window pixels. -/
structure WorldTransform where
  minX : ℚ
  minY : ℚ
  maxX : ℚ
  maxY : ℚ
  scaleX : ℚ
  scaleY : ℚ
  deriving Repr, DecidableEq

/-- The inner `calc_pos` closure of `WorldTransform::translate_position`. -/
def calcPos (val mn scale : ℚ) : Option Nat :=
  let v := val - mn
  if 0 ≤ v then some (q2u32 (v / scale)) else none

/-- `WorldTransform::translate_position`. -/
def WorldTransform.translatePosition (t : WorldTransform) (px py : ℚ) : Option (Nat × Nat) :=
  match calcPos px t.minX t.scaleX, calcPos py t.minY t.scaleY with
  | some x, some y => some (x, y)
  | _, _ => none

/-- `AppImpl::cursor_moved`: `translate_position` followed by the grid
bounds check (`x >= width || y >= height` maps to `none`). -/
def cursorCell (t : WorldTransform) (w h : Nat) (px py : ℚ) : Option (Nat × Nat) :=
  match t.translatePosition px py with
  | some (x, y) => if w ≤ x ∨ h ≤ y then none else some (x, y)
  | none => none

theorem q2u32_lt_iff (q : ℚ) (w : Nat) (hq : 0 ≤ q) (hw : w < 2 ^ 32) :
    q2u32 q < w ↔ Int.floor q < (w : ℤ) := by
  rw [q2u32, if_neg (not_lt.2 hq)]
  have hf : 0 ≤ Int.floor q := Int.floor_nonneg.2 hq
  have htn : ((Int.floor q).toNat : ℤ) = Int.floor q := Int.toNat_of_nonneg hf
  omega

theorem q2u32_eq_floor (q : ℚ) (w : Nat) (hq : 0 ≤ q) (hw : w < 2 ^ 32)
    (hlt : q2u32 q < w) : (q2u32 q : ℤ) = Int.floor q := by
  rw [q2u32, if_neg (not_lt.2 hq)] at hlt ⊢
  have hf : 0 ≤ Int.floor q := Int.floor_nonneg.2 hq
  have htn : ((Int.floor q).toNat : ℤ) = Int.floor q := Int.toNat_of_nonneg hf
  omega

/-- C1: for positive per-cell scales and `u32` grid dimensions, the
cursor-to-cell mapping returns `none` exactly when the pixel position is
left of / above the viewport origin or the floored cell index reaches the
grid dimension, and any returned cell index `(x, y)` satisfies
`x < Gw ∧ y < Gh` and equals the floor of (position − origin) / scale. -/
theorem cursorCell_spec (t : WorldTransform) (w h : Nat) (px py : ℚ)
    (hsx : 0 < t.scaleX) (hsy : 0 < t.scaleY) (hw : w < 2 ^ 32) (hh : h < 2 ^ 32) :
    (cursorCell t w h px py = none ↔
      px < t.minX ∨ py < t.minY ∨
        (w : ℤ) ≤ Int.floor ((px - t.minX) / t.scaleX) ∨
        (h : ℤ) ≤ Int.floor ((py - t.minY) / t.scaleY))
    ∧ (∀ x y, cursorCell t w h px py = some (x, y) →
        x < w ∧ y < h ∧
          (x : ℤ) = Int.floor ((px - t.minX) / t.scaleX) ∧
          (y : ℤ) = Int.floor ((py - t.minY) / t.scaleY)) := by
  by_cases hx0 : 0 ≤ px - t.minX
  · by_cases hy0 : 0 ≤ py - t.minY
    · have hqx : 0 ≤ (px - t.minX) / t.scaleX := div_nonneg hx0 hsx.le
      have hqy : 0 ≤ (py - t.minY) / t.scaleY := div_nonneg hy0 hsy.le
      have hpx : ¬px < t.minX := by rw [not_lt, ← sub_nonneg]; exact hx0
      have hpy : ¬py < t.minY := by rw [not_lt, ← sub_nonneg]; exact hy0
      have hTr : cursorCell t w h px py =
          if w ≤ q2u32 ((px - t.minX) / t.scaleX) ∨ h ≤ q2u32 ((py - t.minY) / t.scaleY)
          then none
          else some (q2u32 ((px - t.minX) / t.scaleX), q2u32 ((py - t.minY) / t.scaleY)) := by
        simp [cursorCell, WorldTransform.translatePosition, calcPos, hx0, hy0]
      have hAx := q2u32_lt_iff ((px - t.minX) / t.scaleX) w hqx hw
      have hAy := q2u32_lt_iff ((py - t.minY) / t.scaleY) h hqy hh
      by_cases hc : w ≤ q2u32 ((px - t.minX) / t.scaleX) ∨ h ≤ q2u32 ((py - t.minY) / t.scaleY)
      · rw [hTr, if_pos hc]
        refine ⟨iff_of_true rfl ?_, fun x y hxy => by cases hxy⟩
        rcases hc with hcx | hcy
        · exact Or.inr (Or.inr (Or.inl (by omega)))
        · exact Or.inr (Or.inr (Or.inr (by omega)))
      · rw [hTr, if_neg hc]
        push_neg at hc
        refine ⟨iff_of_false (by simp) ?_, ?_⟩
        · push_neg
          exact ⟨not_lt.1 hpx, not_lt.1 hpy, by omega, by omega⟩
        · intro x y hxy
          rw [Option.some.injEq, Prod.mk.injEq] at hxy
          obtain ⟨hx, hy⟩ := hxy
          subst hx
          subst hy
          exact ⟨hc.1, hc.2,
            q2u32_eq_floor _ w hqx hw hc.1,
            q2u32_eq_floor _ h hqy hh hc.2⟩
    · have hpy : py < t.minY := by rwa [← sub_neg, ← not_le]
      have hTr : cursorCell t w h px py = none := by
        simp [cursorCell, WorldTransform.translatePosition, calcPos, hx0, hy0]
      rw [hTr]
      exact ⟨by simp [hpy], fun x y hxy => by cases hxy⟩
  · have hpx : px < t.minX := by rwa [← sub_neg, ← not_le]
    have hTr : cursorCell t w h px py = none := by
      simp [cursorCell, WorldTransform.translatePosition, calcPos, hx0]
    rw [hTr]
    exact ⟨by simp [hpx], fun x y hxy => by cases hxy⟩

/-- Witness for `cursorCell_spec`: unit scale, origin 0, 2×2 grid, cursor
at pixel (1/2, 1/2). -/
theorem cursorCell_spec_witness :
    (0 < (WorldTransform.mk 0 0 2 2 1 1).scaleX ∧ 0 < (WorldTransform.mk 0 0 2 2 1 1).scaleY ∧
      2 < 2 ^ 32 ∧ 2 < 2 ^ 32)
    ∧ ((cursorCell (WorldTransform.mk 0 0 2 2 1 1) 2 2 (1 / 2) (1 / 2) = none ↔
        (1 / 2 : ℚ) < (WorldTransform.mk 0 0 2 2 1 1).minX ∨
          (1 / 2 : ℚ) < (WorldTransform.mk 0 0 2 2 1 1).minY ∨
          ((2 : Nat) : ℤ) ≤
            Int.floor ((1 / 2 - (WorldTransform.mk 0 0 2 2 1 1).minX) /
              (WorldTransform.mk 0 0 2 2 1 1).scaleX) ∨
          ((2 : Nat) : ℤ) ≤
            Int.floor ((1 / 2 - (WorldTransform.mk 0 0 2 2 1 1).minY) /
              (WorldTransform.mk 0 0 2 2 1 1).scaleY))
      ∧ (∀ x y, cursorCell (WorldTransform.mk 0 0 2 2 1 1) 2 2 (1 / 2) (1 / 2) = some (x, y) →
          x < 2 ∧ y < 2 ∧
            (x : ℤ) = Int.floor ((1 / 2 - (WorldTransform.mk 0 0 2 2 1 1).minX) /
              (WorldTransform.mk 0 0 2 2 1 1).scaleX) ∧
            (y : ℤ) = Int.floor ((1 / 2 - (WorldTransform.mk 0 0 2 2 1 1).minY) /
              (WorldTransform.mk 0 0 2 2 1 1).scaleY))) :=
  ⟨⟨by norm_num, by norm_num, by norm_num, by norm_num⟩,
    cursorCell_spec (WorldTransform.mk 0 0 2 2 1 1) 2 2 (1 / 2) (1 / 2)
      (by norm_num) (by norm_num) (by norm_num) (by norm_num)⟩

/-! ## Keyboard events and `AppImpl::keyboard_input` control keys -/

/-- A key event: whether the key is pressed (vs released) and its key
code (winit `KeyCode` modelled as `Nat`). -/
structure KeyEv where
  pressed : Bool
  key : Nat
  deriving Repr, DecidableEq

/-- `crate::util::is_pressed`: the event is a press of exactly this key. -/
def isPressed (ev : KeyEv) (k : Nat) : Bool :=
  ev.pressed && ev.key == k

/-- The `if let Some(key) = ... { if is_pressed(...) }` pattern. -/
def matchKey (ev : KeyEv) : Option Nat → Bool
  | none => false
  | some k => isPressed ev k

/-- The key-binding part of `AppConfigs` (src/configs.rs). -/
structure AppConfigsK where
  keyPlay : Option Nat
  keyUpdateOnce : Option Nat
  keyGrid : Option Nat
  deriving Repr, DecidableEq

/-- `AppImpl::keyboard_input` (control keys only): toggles `paused` on the
play key, then — only while paused — runs a single `run_update` on the
single-step key, then toggles the grid overlay.  Returns the new
`(paused, grid_enabled)` flags and the number of direct `World::update`
invocations (via `run_update`, which bypasses the tick timer: the
scheduler state is neither read nor written here). -/
def appKeyboardInput (cfg : AppConfigsK) (paused gridEnabled : Bool) (ev : KeyEv) :
    Bool × Bool × Nat :=
  let paused1 := if matchKey ev cfg.keyPlay then !paused else paused
  let calls := if paused1 && matchKey ev cfg.keyUpdateOnce then 1 else 0
  let grid1 := if matchKey ev cfg.keyGrid then !gridEnabled else gridEnabled
  (paused1, grid1, calls)

/-- C7 counterexample: with play bound to key 0 and single-step to key 1,
pressing the single-step key while the app is running (not paused) makes
zero `World::update` calls, not the one call the claim requires. -/
theorem appKeyboardInput_counterexample :
    (appKeyboardInput (AppConfigsK.mk (some 0) (some 1) none) false false
      (KeyEv.mk true 1)).2.2 = 0 := by decide

/-- C7 as amended: a press of the single-step key runs `World::update`
exactly once if the app is paused after the same event's play-key
processing, and zero times otherwise. -/
theorem appKeyboardInput_single_step (cfg : AppConfigsK) (paused gridEnabled : Bool)
    (ev : KeyEv) (k : Nat) (hk : cfg.keyUpdateOnce = some k) (hp : isPressed ev k = true) :
    ((appKeyboardInput cfg paused gridEnabled ev).1 = true →
      (appKeyboardInput cfg paused gridEnabled ev).2.2 = 1)
    ∧ ((appKeyboardInput cfg paused gridEnabled ev).1 = false →
      (appKeyboardInput cfg paused gridEnabled ev).2.2 = 0) := by
  have hm : matchKey ev cfg.keyUpdateOnce = true := by rw [hk]; exact hp
  unfold appKeyboardInput
  simp only [hm]
  by_cases hpl : matchKey ev cfg.keyPlay = true <;>
    by_cases hpa : paused <;> simp [hpl, hpa]

/-- Witness for `appKeyboardInput_single_step`: single-step bound to key 5,
pressed while paused with no play key bound. -/
theorem appKeyboardInput_single_step_witness :
    ((AppConfigsK.mk none (some 5) none).keyUpdateOnce = some 5 ∧
      isPressed (KeyEv.mk true 5) 5 = true)
    ∧ (((appKeyboardInput (AppConfigsK.mk none (some 5) none) true false
          (KeyEv.mk true 5)).1 = true →
        (appKeyboardInput (AppConfigsK.mk none (some 5) none) true false
          (KeyEv.mk true 5)).2.2 = 1)
      ∧ ((appKeyboardInput (AppConfigsK.mk none (some 5) none) true false
          (KeyEv.mk true 5)).1 = false →
        (appKeyboardInput (AppConfigsK.mk none (some 5) none) true false
          (KeyEv.mk true 5)).2.2 = 0)) :=
  ⟨⟨rfl, by decide⟩,
    appKeyboardInput_single_step (AppConfigsK.mk none (some 5) none) true false
      (KeyEv.mk true 5) 5 rfl (by decide)⟩

/-! ## Painter decorator (`WithPainter`, src/util/painter.rs) -/

/-- Rust `u32 as i32` (two's-complement reinterpretation). -/
def u32ToI32 (n : Nat) : Int :=
  if n < 2 ^ 31 then (n : Int) else (n : Int) - 2 ^ 32

/-- Rust `i32 as u32` (two's-complement reinterpretation). -/
def i32ToU32 (z : Int) : Nat :=
  (z % 2 ^ 32).toNat

/-- Rust `u32::checked_add_signed`. -/
def checkedAddSigned (n : Nat) (o : Int) : Option Nat :=
  let r := (n : Int) + o
  if 0 ≤ r ∧ r < 2 ^ 32 then some r.toNat else none

/-- The inclusive Rust range `a..=b` over `i32`, as a list. -/
def intIcc (a b : Int) : List Int :=
  (List.range (b + 1 - a).toNat).map fun (i : Nat) => a + (i : Int)

theorem mem_intIcc (a b z : Int) : z ∈ intIcc a b ↔ a ≤ z ∧ z ≤ b := by
  rw [intIcc, List.mem_map]
  constructor
  · rintro ⟨i, hi, rfl⟩
    rw [List.mem_range] at hi
    omega
  · rintro ⟨h1, h2⟩
    refine ⟨(z - a).toNat, ?_, by omega⟩
    rw [List.mem_range]
    omega

theorem nodup_intIcc (a b : Int) : (intIcc a b).Nodup := by
  refine List.Nodup.map ?_ (List.nodup_range _)
  intro i j hij
  simp only [add_right_inj, Int.natCast_inj] at hij
  exact hij

theorem length_intIcc (b : Nat) : (intIcc (-(b : Int)) b).length = 2 * b + 1 := by
  rw [intIcc, List.length_map, List.length_range]
  omega

/-- `WithPainter::draw_at`: the cells at which `paint_fn` is invoked for a
single brush stamp centred at `(x, y)` with `brush_size = b`, in
invocation order.  The source casts `brush_size` to `i32`, iterates
offsets `-b..=b` on each axis, skips offsets whose `checked_add_signed`
overflows `u32` and coordinates at or beyond the image dimensions. -/
def drawAtCells (w h x y b : Nat) : List (Nat × Nat) :=
  let bI := u32ToI32 b
  (intIcc (-bI) bI).flatMap fun oy =>
    match checkedAddSigned y oy with
    | none => []
    | some y1 =>
        if h ≤ y1 then []
        else
          (intIcc (-bI) bI).filterMap fun ox =>
            match checkedAddSigned x ox with
            | none => none
            | some x1 => if w ≤ x1 then none else some (x1, y1)

/-- A closed form for `drawAtCells` under the `u32` size bounds: one
`filterMap` per row with a single bounds condition. -/
theorem drawAtCells_eq (w h x y b : Nat) (hw : w ≤ 2 ^ 32) (hh : h ≤ 2 ^ 32)
    (hb : b < 2 ^ 31) :
    drawAtCells w h x y b =
      (intIcc (-(b : Int)) b).flatMap fun oy =>
        (intIcc (-(b : Int)) b).filterMap fun ox =>
          if 0 ≤ (y : Int) + oy ∧ (y : Int) + oy < (h : Int) ∧
              0 ≤ (x : Int) + ox ∧ (x : Int) + ox < (w : Int) then
            some ((((x : Int) + ox).toNat, ((y : Int) + oy).toNat))
          else none := by
  have hbI : u32ToI32 b = (b : Int) := by
    rw [u32ToI32, if_pos (by exact_mod_cast hb)]
  simp only [drawAtCells, hbI]
  apply List.flatMap_congr  -- pointwise equality of the row lists
  intro oy hoy
  by_cases h1 : 0 ≤ (y : Int) + oy ∧ (y : Int) + oy < 2 ^ 32
  · have hcy : checkedAddSigned y oy = some ((y : Int) + oy).toNat := by
      simp only [checkedAddSigned]
      rw [if_pos h1]
    simp only [hcy]
    by_cases h2 : h ≤ ((y : Int) + oy).toNat
    · rw [if_pos h2]
      symm
      rw [List.filterMap_eq_nil_iff]
      intro ox _
      rw [if_neg (by omega)]
    · rw [if_neg h2]
      apply List.filterMap_congr
      intro ox _
      by_cases h3 : 0 ≤ (x : Int) + ox ∧ (x : Int) + ox < 2 ^ 32
      · have hcx : checkedAddSigned x ox = some ((x : Int) + ox).toNat := by
          simp only [checkedAddSigned]
          rw [if_pos h3]
        simp only [hcx]
        by_cases h4 : w ≤ ((x : Int) + ox).toNat
        · rw [if_pos h4, if_neg (by omega)]
        · rw [if_neg h4, if_pos (by omega)]
      · have hcx : checkedAddSigned x ox = none := by
          simp only [checkedAddSigned]
          rw [if_neg h3]
        simp only [hcx]
        rw [if_neg (by omega)]
  · have hcy : checkedAddSigned y oy = none := by
      simp only [checkedAddSigned]
      rw [if_neg h1]
    simp only [hcy]
    symm
    rw [List.filterMap_eq_nil_iff]
    intro ox _
    rw [if_neg (by omega)]

theorem mem_drawAtCells (w h x y b : Nat) (c : Nat × Nat)
    (hw : w ≤ 2 ^ 32) (hh : h ≤ 2 ^ 32) (hb : b < 2 ^ 31) :
    c ∈ drawAtCells w h x y b ↔
      c.1 < w ∧ c.2 < h ∧
        ((c.1 : Int) - x).natAbs ≤ b ∧ ((c.2 : Int) - y).natAbs ≤ b := by
  rw [drawAtCells_eq w h x y b hw hh hb]
  simp only [List.mem_flatMap, List.mem_filterMap, mem_intIcc]
  constructor
  · rintro ⟨oy, hoy, ox, hox, heq⟩
    split at heq
    · rename_i hcond
      rw [Option.some.injEq] at heq
      subst heq
      simp only
      omega
    · cases heq
  · rintro ⟨h1, h2, h3, h4⟩
    refine ⟨(c.2 : Int) - y, by omega, (c.1 : Int) - x, by omega, ?_⟩
    rw [if_pos (by omega)]
    rw [Option.some.injEq]
    have e1 : ((x : Int) + ((c.1 : Int) - x)).toNat = c.1 := by omega
    have e2 : ((y : Int) + ((c.2 : Int) - y)).toNat = c.2 := by omega
    rw [e1, e2]

theorem nodup_drawAtCells (w h x y b : Nat) (hw : w ≤ 2 ^ 32) (hh : h ≤ 2 ^ 32)
    (hb : b < 2 ^ 31) : (drawAtCells w h x y b).Nodup := by
  rw [drawAtCells_eq w h x y b hw hh hb]
  rw [List.nodup_flatMap]
  constructor
  · intro oy _
    refine List.Nodup.filterMap ?_ (nodup_intIcc _ _)
    intro ox ox' c hc hc'
    split at hc
    · rename_i hcond
      rw [Option.mem_def, Option.some.injEq] at hc
      split at hc'
      · rename_i hcond'
        rw [Option.mem_def, Option.some.injEq] at hc'
        have e1 : ((x : Int) + ox).toNat = c.1 := by rw [← hc]
        have e2 : ((x : Int) + ox').toNat = c.1 := by rw [← hc']
        omega
      · cases hc'
    · cases hc
  · have hne : (intIcc (-(b : Int)) b).Pairwise (· ≠ ·) := nodup_intIcc _ _
    refine hne.imp ?_
    intro oy oy' hne c hc hc'
    rw [List.mem_filterMap] at hc hc'
    obtain ⟨ox, _, hfx⟩ := hc
    obtain ⟨ox', _, hfx'⟩ := hc'
    split at hfx
    · rename_i hcond
      rw [Option.some.injEq] at hfx
      split at hfx'
      · rename_i hcond'
        rw [Option.some.injEq] at hfx'
        have e1 : c.2 = ((y : Int) + oy).toNat := by rw [← hfx]
        have e2 : c.2 = ((y : Int) + oy').toNat := by rw [← hfx']
        exact absurd (by omega : oy = oy') hne
      · cases hfx'
    · cases hfx

theorem count_eq_one_of_nodup_mem {α : Type} [BEq α] [LawfulBEq α] {l : List α} {a : α}
    (hn : l.Nodup) (ha : a ∈ l) : l.count a = 1 := by
  induction l with
  | nil => cases ha
  | cons b l ih =>
      rw [List.count_cons]
      rcases List.mem_cons.1 ha with rfl | ha'
      · rw [List.count_eq_zero.2 (List.nodup_cons.1 hn).1]
        simp
      · rw [ih (List.nodup_cons.1 hn).2 ha']
        have hne : b ≠ a := by rintro rfl; exact (List.nodup_cons.1 hn).1 ha'
        simp [hne]

theorem flatMap_length_le {α β : Type} (l : List α) (f : α → List β) (n : Nat)
    (hf : ∀ a ∈ l, (f a).length ≤ n) : (l.flatMap f).length ≤ l.length * n := by
  induction l with
  | nil => simp
  | cons a l ih =>
      rw [List.flatMap_cons, List.length_append, List.length_cons, Nat.succ_mul]
      have h1 := hf a (List.mem_cons_self a l)
      have h2 := ih fun a' ha' => hf a' (List.mem_cons_of_mem _ ha')
      generalize l.length * n = P at h2 ⊢
      omega

/-- C4: a single `draw_at` call with centre `(x, y)` inside the image and
brush radius `b` invokes `paint_fn` exactly once for each cell of the
`(2b+1)×(2b+1)` brush square that lies within the image bounds, never
with out-of-bounds coordinates; with radius 0 exactly the centre cell is
painted, and at most `(2b+1)^2` cells are ever painted. -/
theorem drawAt_spec (w h x y b : Nat) (hx : x < w) (hy : y < h)
    (hw : w ≤ 2 ^ 32) (hh : h ≤ 2 ^ 32) (hb : b < 2 ^ 31) :
    (∀ u v : Nat, u < w → v < h →
        ((u : Int) - x).natAbs ≤ b → ((v : Int) - y).natAbs ≤ b →
        (drawAtCells w h x y b).count (u, v) = 1)
    ∧ (∀ c ∈ drawAtCells w h x y b,
        c.1 < w ∧ c.2 < h ∧ ((c.1 : Int) - x).natAbs ≤ b ∧ ((c.2 : Int) - y).natAbs ≤ b)
    ∧ (drawAtCells w h x y b).length ≤ (2 * b + 1) ^ 2
    ∧ (b = 0 → drawAtCells w h x y b = [(x, y)]) := by
  refine ⟨?_, ?_, ?_, ?_⟩
  · intro u v hu hv h1 h2
    exact count_eq_one_of_nodup_mem (nodup_drawAtCells w h x y b hw hh hb)
      ((mem_drawAtCells w h x y b (u, v) hw hh hb).2 ⟨hu, hv, h1, h2⟩)
  · intro c hc
    exact (mem_drawAtCells w h x y b c hw hh hb).1 hc
  · rw [drawAtCells_eq w h x y b hw hh hb, pow_two]
    have hlen := length_intIcc b
    calc ((intIcc (-(b : Int)) b).flatMap _).length
        ≤ (intIcc (-(b : Int)) b).length * (2 * b + 1) := by
          apply flatMap_length_le
          intro oy _
          exact le_trans (List.length_filterMap_le _ _) (le_of_eq hlen)
    _ = (2 * b + 1) * (2 * b + 1) := by rw [hlen]
  · intro hb0
    subst hb0
    rw [drawAtCells_eq w h x y 0 hw hh (by norm_num)]
    simp only [Nat.cast_zero]
    have hicc : intIcc (-(0 : Int)) (0 : Int) = [0] := by decide
    rw [hicc]
    simp only [List.flatMap_cons, List.flatMap_nil, List.append_nil,
      List.filterMap_cons, List.filterMap_nil, add_zero, Int.toNat_natCast]
    rw [if_pos (show 0 ≤ (y : Int) ∧ (y : Int) < (h : Int) ∧
      0 ≤ (x : Int) ∧ (x : Int) < (w : Int) by omega)]

/-- Witness for `drawAt_spec`: 3×3 image, centre (1,1), radius 1. -/
theorem drawAt_spec_witness :
    (1 < 3 ∧ 1 < 3 ∧ 3 ≤ 2 ^ 32 ∧ 3 ≤ 2 ^ 32 ∧ 1 < 2 ^ 31)
    ∧ ((∀ u v : Nat, u < 3 → v < 3 →
          ((u : Int) - 1).natAbs ≤ 1 → ((v : Int) - 1).natAbs ≤ 1 →
          (drawAtCells 3 3 1 1 1).count (u, v) = 1)
      ∧ (∀ c ∈ drawAtCells 3 3 1 1 1,
          c.1 < 3 ∧ c.2 < 3 ∧ ((c.1 : Int) - 1).natAbs ≤ 1 ∧ ((c.2 : Int) - 1).natAbs ≤ 1)
      ∧ (drawAtCells 3 3 1 1 1).length ≤ (2 * 1 + 1) ^ 2
      ∧ (1 = 0 → drawAtCells 3 3 1 1 1 = [(1, 1)])) :=
  ⟨⟨by norm_num, by norm_num, by norm_num, by norm_num, by norm_num⟩,
    drawAt_spec 3 3 1 1 1 (by norm_num) (by norm_num) (by norm_num) (by norm_num) (by norm_num)⟩

/-! ### Painter state and keyboard input -/

/-- Inks (the palette value type) are modelled as `Nat`. -/
abbrev Ink := Nat

/-- The painter-relevant state of `WithPainter` together with its
`PainterDescriptor` (src/util/painter.rs).  `paintFnPresent` models
`desc.paint_fn.is_some()`; key codes and inks are `Nat`s; the palette is
the `BTreeMap` rendered as its association list in ascending key order
(its iteration order). -/
structure PainterState where
  palette : List (Nat × Ink)
  paintFnPresent : Bool
  selected : Option Ink
  keyFill : Option Nat
  keyFillRandom : Option Nat
  keyBrushExpand : Option Nat
  keyBrushShrink : Option Nat
  brushSize : Nat
  mousePosPrev : Option (Nat × Nat)
  mousePos : Option (Nat × Nat)
  isPainting : Bool
  deriving Repr, DecidableEq

/-- `WithPainter::BRUSH_SIZE_MAX`. -/
def BRUSH_SIZE_MAX : Nat := 10

/-- `WithPainter::new`: fresh painter state over a descriptor — brush size
0, no cursor history, not painting. -/
def WithPainter.new (palette : List (Nat × Ink)) (paintFnPresent : Bool)
    (selected : Option Ink)
    (keyFill keyFillRandom keyBrushExpand keyBrushShrink : Option Nat) : PainterState :=
  ⟨palette, paintFnPresent, selected, keyFill, keyFillRandom, keyBrushExpand, keyBrushShrink,
    0, none, none, false⟩

/-- One `paint_fn` invocation: the painted cell and the ink passed. -/
abbrev PaintCall := (Nat × Nat) × Ink

/-- The cells of a `w × h` image in the `for y { for x }` order used by
the fill loops. -/
def allCells (w h : Nat) : List (Nat × Nat) :=
  (List.range h).flatMap fun y => (List.range w).map fun x => (x, y)

theorem mem_allCells (w h : Nat) (c : Nat × Nat) :
    c ∈ allCells w h ↔ c.1 < w ∧ c.2 < h := by
  simp only [allCells, List.mem_flatMap, List.mem_map, List.mem_range]
  constructor
  · rintro ⟨y, hy, x, hx, rfl⟩
    exact ⟨hx, hy⟩
  · rintro ⟨h1, h2⟩
    exact ⟨c.2, h2, c.1, h1, rfl⟩

theorem nodup_allCells (w h : Nat) : (allCells w h).Nodup := by
  rw [allCells, List.nodup_flatMap]
  constructor
  · intro y _
    refine List.Nodup.map ?_ (List.nodup_range _)
    intro a b hab
    simpa using hab
  · refine (List.nodup_range h).imp ?_
    intro a b hne c hc hc'
    rw [List.mem_map] at hc hc'
    obtain ⟨xa, _, rfl⟩ := hc
    obtain ⟨xb, _, h2⟩ := hc'
    injection h2 with h3 h4
    exact hne h4.symm

/-- `WithPainter::keyboard_input` (src/util/painter.rs): palette selection,
brush expand (only below `BRUSH_SIZE_MAX`), brush shrink (saturating at
0), fill and random fill, in source order.  `w`, `h` are the image
dimensions; `rng c` models the unseeded RNG's choice of a palette value
for cell `c` during random fill.  Returns the new state and the ordered
`paint_fn` invocations. -/
def painterKeyboardInput (st : PainterState) (w h : Nat) (rng : Nat × Nat → Ink)
    (ev : KeyEv) : PainterState × List PaintCall :=
  let selected1 := st.palette.foldl
    (fun acc kv => if isPressed ev kv.1 then some kv.2 else acc) st.selected
  let brush1 :=
    if matchKey ev st.keyBrushExpand ∧ st.brushSize < BRUSH_SIZE_MAX then
      st.brushSize + 1
    else st.brushSize
  let brush2 := if matchKey ev st.keyBrushShrink then brush1 - 1 else brush1
  let fillCalls :=
    if st.paintFnPresent ∧ matchKey ev st.keyFill then
      match selected1 with
      | some ink => (allCells w h).map fun c => (c, ink)
      | none => []
    else []
  let randCalls :=
    if st.paintFnPresent ∧ matchKey ev st.keyFillRandom ∧ st.palette ≠ [] then
      (allCells w h).map fun c => (c, rng c)
    else []
  ({ st with selected := selected1, brushSize := brush2 }, fillCalls ++ randCalls)

/-- Folding `keyboard_input` over a sequence of key events (state only). -/
def painterRunKeys (st : PainterState) (w h : Nat) (rng : Nat × Nat → Ink) :
    List KeyEv → PainterState
  | [] => st
  | e :: es => painterRunKeys (painterKeyboardInput st w h rng e).1 w h rng es

theorem painterKeyboardInput_brush (st : PainterState) (w h : Nat)
    (rng : Nat × Nat → Ink) (ev : KeyEv) :
    (painterKeyboardInput st w h rng ev).1.brushSize =
      (if matchKey ev st.keyBrushShrink then
        (if matchKey ev st.keyBrushExpand ∧ st.brushSize < BRUSH_SIZE_MAX then
          st.brushSize + 1 else st.brushSize) - 1
      else
        (if matchKey ev st.keyBrushExpand ∧ st.brushSize < BRUSH_SIZE_MAX then
          st.brushSize + 1 else st.brushSize)) := by
  by_cases h1 : (matchKey ev st.keyBrushExpand : Prop) ∧ st.brushSize < BRUSH_SIZE_MAX <;>
    by_cases h2 : (matchKey ev st.keyBrushShrink : Prop) <;>
      simp [painterKeyboardInput, h1, h2]

theorem painterKeyboardInput_brush_le (st : PainterState) (w h : Nat)
    (rng : Nat × Nat → Ink) (ev : KeyEv) (hb : st.brushSize ≤ BRUSH_SIZE_MAX) :
    (painterKeyboardInput st w h rng ev).1.brushSize ≤ BRUSH_SIZE_MAX := by
  rw [painterKeyboardInput_brush]
  rw [BRUSH_SIZE_MAX] at hb ⊢
  split_ifs with h1 h2 h3 <;> omega

theorem painterRunKeys_brush_le (w h : Nat) (rng : Nat × Nat → Ink) (evs : List KeyEv) :
    ∀ st : PainterState, st.brushSize ≤ BRUSH_SIZE_MAX →
      (painterRunKeys st w h rng evs).brushSize ≤ BRUSH_SIZE_MAX := by
  induction evs with
  | nil => intro st hb; exact hb
  | cons e es ih =>
      intro st hb
      exact ih _ (painterKeyboardInput_brush_le st w h rng e hb)

/-- C6: starting from a fresh painter (brush 0), the brush size stays in
`[0, BRUSH_SIZE_MAX] = [0, 10]` after any sequence of key events, in any
order (0 ≤ brush is inherent in the `Nat` model of `u32`); an expand press
increments only below 10 and a shrink press decrements saturating at 0. -/
theorem brush_clamped (palette : List (Nat × Ink)) (paintFnPresent : Bool)
    (selected : Option Ink) (kF kFR kBE kBS : Option Nat) (w h : Nat)
    (rng : Nat × Nat → Ink) (evs : List KeyEv) :
    (painterRunKeys (WithPainter.new palette paintFnPresent selected kF kFR kBE kBS)
        w h rng evs).brushSize ≤ BRUSH_SIZE_MAX
    ∧ (∀ st : PainterState, ∀ ev : KeyEv,
        matchKey ev st.keyBrushExpand = true → matchKey ev st.keyBrushShrink = false →
        (painterKeyboardInput st w h rng ev).1.brushSize =
          if st.brushSize < BRUSH_SIZE_MAX then st.brushSize + 1 else st.brushSize)
    ∧ (∀ st : PainterState, ∀ ev : KeyEv,
        matchKey ev st.keyBrushExpand = false → matchKey ev st.keyBrushShrink = true →
        (painterKeyboardInput st w h rng ev).1.brushSize = st.brushSize - 1) := by
  refine ⟨painterRunKeys_brush_le w h rng evs _ (by simp [WithPainter.new]), ?_, ?_⟩
  · intro st ev he hs
    rw [painterKeyboardInput_brush, if_neg (by simp [hs])]
    by_cases hlt : st.brushSize < BRUSH_SIZE_MAX
    · rw [if_pos ⟨by simp [he], hlt⟩, if_pos hlt]
    · rw [if_neg (by simp [hlt]), if_neg hlt]
  · intro st ev he hs
    rw [painterKeyboardInput_brush, if_pos (by simp [hs]), if_neg (by simp [he])]

/-- Witness for `brush_clamped`: expand bound to key 1, shrink to key 2,
pressing expand then shrink on a 1×1 image. -/
theorem brush_clamped_witness :
    (painterRunKeys (WithPainter.new [] true none none none (some 1) (some 2))
        1 1 (fun _ => 0) [KeyEv.mk true 1, KeyEv.mk true 2]).brushSize ≤ BRUSH_SIZE_MAX
    ∧ (∀ st : PainterState, ∀ ev : KeyEv,
        matchKey ev st.keyBrushExpand = true → matchKey ev st.keyBrushShrink = false →
        (painterKeyboardInput st 1 1 (fun _ => 0) ev).1.brushSize =
          if st.brushSize < BRUSH_SIZE_MAX then st.brushSize + 1 else st.brushSize)
    ∧ (∀ st : PainterState, ∀ ev : KeyEv,
        matchKey ev st.keyBrushExpand = false → matchKey ev st.keyBrushShrink = true →
        (painterKeyboardInput st 1 1 (fun _ => 0) ev).1.brushSize = st.brushSize - 1) :=
  brush_clamped [] true none none none (some 1) (some 2) 1 1 (fun _ => 0)
    [KeyEv.mk true 1, KeyEv.mk true 2]

theorem foldl_select_no_match (ev : KeyEv) :
    ∀ (palette : List (Nat × Ink)) (acc : Option Ink),
      (∀ kv ∈ palette, isPressed ev kv.1 = false) →
      palette.foldl (fun acc kv => if isPressed ev kv.1 then some kv.2 else acc) acc = acc := by
  intro palette
  induction palette with
  | nil => intro acc _; rfl
  | cons kv l ih =>
      intro acc h
      rw [List.foldl_cons, if_neg (by simp [h kv (List.mem_cons_self kv l)])]
      exact ih acc fun kv' h' => h kv' (List.mem_cons_of_mem _ h')

/-- C5 counterexample: a painter with `paint_fn` present, *no* selected
ink, and the fill key also bound in the palette (key 5 ↦ ink 2).  Pressing
key 5 on a 1×1 image makes one `paint_fn` call — the claim requires zero
calls when no ink is selected (and, had an ink been selected, the call
would use the palette ink chosen by the same event, not the previously
selected one). -/
theorem painterFill_counterexample :
    (painterKeyboardInput
        (PainterState.mk [(5, 2)] true none (some 5) none none none 0 none none false)
        1 1 (fun _ => 0) (KeyEv.mk true 5)).2 = [((0, 0), 2)] := by decide

/-- C5 as amended: provided the pressed fill key is not also bound in the
palette and differs from the random-fill key, a press of `key_fill` with
`paint_fn` present and an ink selected invokes `paint_fn` exactly once per
cell of the `w × h` image, each time with the selected ink; with
`paint_fn` absent or no ink selected it invokes `paint_fn` zero times. -/
theorem painterFill_spec (st : PainterState) (w h : Nat) (rng : Nat × Nat → Ink)
    (ev : KeyEv) (k : Nat) (hk : st.keyFill = some k) (hp : isPressed ev k = true)
    (hpal : ∀ kv ∈ st.palette, kv.1 ≠ k) (hrand : st.keyFillRandom ≠ some k) :
    (∀ ink, st.paintFnPresent = true → st.selected = some ink →
      (painterKeyboardInput st w h rng ev).2 = ((allCells w h).map fun c => (c, ink))
      ∧ ∀ u v : Nat, u < w → v < h →
          (painterKeyboardInput st w h rng ev).2.count ((u, v), ink) = 1)
    ∧ (st.paintFnPresent = false ∨ st.selected = none →
        (painterKeyboardInput st w h rng ev).2 = []) := by
  have hev : ev.pressed = true ∧ ev.key = k := by
    rw [isPressed, Bool.and_eq_true, beq_iff_eq] at hp
    exact hp
  have hnomatch : ∀ kv ∈ st.palette, isPressed ev kv.1 = false := by
    intro kv hkv
    rw [isPressed, hev.1, Bool.true_and, beq_eq_false_iff_ne]
    rw [hev.2]
    exact fun hne => hpal kv hkv hne.symm
  have hsel : st.palette.foldl
      (fun acc kv => if isPressed ev kv.1 then some kv.2 else acc) st.selected =
        st.selected :=
    foldl_select_no_match ev st.palette st.selected hnomatch
  have hfillkey : matchKey ev st.keyFill = true := by
    rw [hk]
    exact hp
  have hrandkey : matchKey ev st.keyFillRandom = false := by
    match hfr : st.keyFillRandom with
    | none => rfl
    | some k' =>
        have hne : k' ≠ k := fun hkk => hrand (by rw [hfr, hkk])
        rw [matchKey, isPressed, hev.1, Bool.true_and, beq_eq_false_iff_ne, hev.2]
        exact fun hne' => hne hne'.symm
  constructor
  · intro ink hpf hski
    have hsel2 : st.palette.foldl
        (fun acc kv => if isPressed ev kv.1 then some kv.2 else acc) (some ink) = some ink := by
      rw [← hski]
      exact hsel
    have hcalls : (painterKeyboardInput st w h rng ev).2 =
        ((allCells w h).map fun c => (c, ink)) := by
      simp only [painterKeyboardInput, hski, hsel2, hfillkey, hrandkey, hpf]
      simp
    refine ⟨hcalls, ?_⟩
    intro u v hu hv
    rw [hcalls]
    apply count_eq_one_of_nodup_mem
    · refine List.Nodup.map ?_ (nodup_allCells w h)
      intro c c' hcc
      simpa using (Prod.mk.injEq _ _ _ _ ▸ hcc : _ ∧ _).1
    · rw [List.mem_map]
      exact ⟨(u, v), (mem_allCells w h (u, v)).2 ⟨hu, hv⟩, rfl⟩
  · intro hcase
    rcases hcase with hpf | hski
    · simp only [painterKeyboardInput, hsel, hfillkey, hrandkey, hpf]
      simp
    · have hsel3 : st.palette.foldl
          (fun acc kv => if isPressed ev kv.1 then some kv.2 else acc) none = none := by
        rw [← hski]
        exact hsel
      simp only [painterKeyboardInput, hski, hsel3, hfillkey, hrandkey]
      simp

/-- Witness for `painterFill_spec`: 2×2 image, fill key 7 pressed,
palette `{3 ↦ 1}`, ink 9 selected, `paint_fn` present. -/
theorem painterFill_spec_witness :
    ((PainterState.mk [(3, 1)] true (some 9) (some 7) none none none 0 none none
        false).keyFill = some 7 ∧
      isPressed (KeyEv.mk true 7) 7 = true ∧
      (∀ kv ∈ (PainterState.mk [(3, 1)] true (some 9) (some 7) none none none 0 none none
        false).palette, kv.1 ≠ 7) ∧
      (PainterState.mk [(3, 1)] true (some 9) (some 7) none none none 0 none none
        false).keyFillRandom ≠ some 7)
    ∧ ((∀ ink, (PainterState.mk [(3, 1)] true (some 9) (some 7) none none none 0 none none
          false).paintFnPresent = true →
        (PainterState.mk [(3, 1)] true (some 9) (some 7) none none none 0 none none
          false).selected = some ink →
        (painterKeyboardInput
            (PainterState.mk [(3, 1)] true (some 9) (some 7) none none none 0 none none false)
            2 2 (fun _ => 0) (KeyEv.mk true 7)).2 =
          ((allCells 2 2).map fun c => (c, ink))
        ∧ ∀ u v : Nat, u < 2 → v < 2 →
            (painterKeyboardInput
              (PainterState.mk [(3, 1)] true (some 9) (some 7) none none none 0 none none false)
              2 2 (fun _ => 0) (KeyEv.mk true 7)).2.count ((u, v), ink) = 1)
      ∧ ((PainterState.mk [(3, 1)] true (some 9) (some 7) none none none 0 none none
            false).paintFnPresent = false ∨
          (PainterState.mk [(3, 1)] true (some 9) (some 7) none none none 0 none none
            false).selected = none →
          (painterKeyboardInput
            (PainterState.mk [(3, 1)] true (some 9) (some 7) none none none 0 none none false)
            2 2 (fun _ => 0) (KeyEv.mk true 7)).2 = [])) :=
  ⟨⟨rfl, by decide, by decide, by decide⟩,
    painterFill_spec
      (PainterState.mk [(3, 1)] true (some 9) (some 7) none none none 0 none none false)
      2 2 (fun _ => 0) (KeyEv.mk true 7) 7 rfl (by decide) (by decide) (by decide)⟩

/-! ### Bresenham lines (the `line_drawing` crate) and mouse input

`WithPainter::draw` walks `line_drawing::Bresenham::new((x0,y0),(x1,y1))`.
The crate normalizes the segment into octant 0 (`Octant::from_points`
flips signs/axes in three steps and records the octant number), walks it
with the classic error accumulator, and maps each yielded point back
(`from_octant0`).  `octantFromPoints` below writes the three sign/swap
steps of `Octant::from_points` as one decision tree over the same
conditions. -/

/-- `line_drawing::Octant::from_points`. -/
def octantFromPoints (s e : Int × Int) : Nat :=
  let dx := e.1 - s.1
  let dy := e.2 - s.2
  if dy < 0 then
    if -dx < 0 then
      if -dy < dx then 7 else 6
    else
      if -dx < -dy then 5 else 4
  else
    if dx < 0 then
      if dy < -dx then 3 else 2
    else
      if dx < dy then 1 else 0

/-- `line_drawing::Octant::to_octant0`. -/
def toOctant0 (o : Nat) (p : Int × Int) : Int × Int :=
  match o with
  | 0 => (p.1, p.2)
  | 1 => (p.2, p.1)
  | 2 => (p.2, -p.1)
  | 3 => (-p.1, p.2)
  | 4 => (-p.1, -p.2)
  | 5 => (-p.2, -p.1)
  | 6 => (-p.2, p.1)
  | _ => (p.1, -p.2)

/-- `line_drawing::Octant::from_octant0`. -/
def fromOctant0 (o : Nat) (p : Int × Int) : Int × Int :=
  match o with
  | 0 => (p.1, p.2)
  | 1 => (p.2, p.1)
  | 2 => (-p.2, p.1)
  | 3 => (-p.1, p.2)
  | 4 => (-p.1, -p.2)
  | 5 => (-p.2, -p.1)
  | 6 => (p.2, -p.1)
  | _ => (p.1, -p.2)

theorem fromOctant0_toOctant0 (o : Nat) (p : Int × Int) :
    fromOctant0 o (toOctant0 o p) = p := by
  rcases o with _ | _ | _ | _ | _ | _ | _ | o <;> simp [toOctant0, fromOctant0]

/-- In octant-0 coordinates the end never lies left of the start. -/
theorem octant0_dx_nonneg (s e : Int × Int) :
    (toOctant0 (octantFromPoints s e) s).1 ≤ (toOctant0 (octantFromPoints s e) e).1 := by
  simp only [octantFromPoints]
  split_ifs <;> simp [toOctant0] <;> omega

/-- The yield loop of `line_drawing::Bresenham` in octant-0 coordinates:
it yields while `point.0 ≤ x1`, stepping the error accumulator exactly as
`Iterator::next` does.  The fuel is chosen in `bresenham` large enough
that it never cuts the iteration short. -/
def bresLoop (fuel : Nat) (px py diff dx dy x1 : Int) : List (Int × Int) :=
  match fuel with
  | 0 => []
  | fuel + 1 =>
      if x1 < px then []
      else
        let diff1 := if 0 ≤ diff then diff - dx else diff
        let py1 := if 0 ≤ diff then py + 1 else py
        (px, py) :: bresLoop fuel (px + 1) py1 (diff1 + dy) dx dy x1

/-- `line_drawing::Bresenham::new` followed by full iteration: the points
of the discrete line from `s` to `e`, both inclusive, in order. -/
def bresenham (s e : Int × Int) : List (Int × Int) :=
  let o := octantFromPoints s e
  let s0 := toOctant0 o s
  let e0 := toOctant0 o e
  let dx := e0.1 - s0.1
  let dy := e0.2 - s0.2
  (bresLoop (dx.toNat + 1) s0.1 s0.2 (dy - dx) dx dy e0.1).map (fromOctant0 o)

/-- The Bresenham walk always yields its start point (first). -/
theorem start_mem_bresenham (s e : Int × Int) : s ∈ bresenham s e := by
  have hle := octant0_dx_nonneg s e
  simp only [bresenham, bresLoop]
  rw [if_neg (not_lt.2 hle), List.map_cons, Prod.mk.eta, fromOctant0_toOctant0]
  exact List.mem_cons_self _ _

theorem i32ToU32_u32ToI32 (n : Nat) (hn : n < 2 ^ 32) : i32ToU32 (u32ToI32 n) = n := by
  rw [u32ToI32, i32ToU32]
  by_cases h : n < 2 ^ 31
  · rw [if_pos h]; omega
  · rw [if_neg h]; omega

/-- `WithPainter::draw` (src/util/painter.rs): the cells painted by one
draw pass — empty unless `paint_fn` is present, `is_painting` holds, an
ink is selected and both cursor positions are known; otherwise one
`draw_at` stamp per Bresenham point between the two positions (each
painted with the selected ink), with the `u32 ↔ i32` casts of the
source. -/
def drawCalls (st : PainterState) (w h : Nat) : List (Nat × Nat) :=
  if st.paintFnPresent = false then []
  else if st.isPainting then
    match st.selected, st.mousePosPrev, st.mousePos with
    | some _, some p0, some p1 =>
        (bresenham (u32ToI32 p0.1, u32ToI32 p0.2) (u32ToI32 p1.1, u32ToI32 p1.2)).flatMap
          fun q => drawAtCells w h (i32ToU32 q.1) (i32ToU32 q.2) st.brushSize
    | _, _, _ => []
  else []

/-- `MouseButton`. -/
inductive MouseBtn
  | left
  | right
  | middle
  | other
  deriving Repr, DecidableEq

/-- `WithPainter::mouse_input`: a left-button event first sets
`is_painting` to the event's pressed state, then the draw pass runs on the
updated state; other buttons leave the state alone but still run the draw
pass. -/
def painterMouseInput (st : PainterState) (w h : Nat) (btn : MouseBtn) (pr : Bool) :
    PainterState × List (Nat × Nat) :=
  let st1 := if btn = MouseBtn.left then { st with isPainting := pr } else st
  (st1, drawCalls st1 w h)

/-- C9 counterexample: with `paint_fn` absent, a left-button press with a
selected ink and known identical previous/current cursor positions paints
nothing — the claim's "paints immediately" fails without the paint
function. -/
theorem painterMouse_counterexample :
    (painterMouseInput
      (PainterState.mk [] false (some 0) none none none none 0
        (some (0, 0)) (some (0, 0)) false)
      1 1 MouseBtn.left true).2 = [] := by decide

/-- C9 as amended: a left-button event updates `is_painting` to the
pressed state before the draw pass, so a release never invokes `paint_fn`;
a press runs the draw pass with `is_painting` already true and paints at
least one cell provided additionally that `paint_fn` is present and the
previous cursor cell lies within the image bounds; non-left buttons leave
`is_painting` (indeed the whole state) unchanged but still run the draw
pass. -/
theorem painterMouse_spec (st : PainterState) (w h : Nat) (btn : MouseBtn) (pr : Bool) :
    ((painterMouseInput st w h MouseBtn.left false).2 = []
      ∧ (painterMouseInput st w h MouseBtn.left false).1.isPainting = false)
    ∧ ((painterMouseInput st w h MouseBtn.left true).1.isPainting = true
      ∧ (painterMouseInput st w h MouseBtn.left true).2 =
          drawCalls { st with isPainting := true } w h
      ∧ (∀ ink x0 y0 p1, st.paintFnPresent = true → st.selected = some ink →
          st.mousePosPrev = some (x0, y0) → st.mousePos = some p1 →
          x0 < w → y0 < h → w ≤ 2 ^ 32 → h ≤ 2 ^ 32 → st.brushSize < 2 ^ 31 →
          (painterMouseInput st w h MouseBtn.left true).2 ≠ []))
    ∧ (btn ≠ MouseBtn.left →
        (painterMouseInput st w h btn pr).1 = st
        ∧ (painterMouseInput st w h btn pr).2 = drawCalls st w h) := by
  refine ⟨⟨?_, ?_⟩, ⟨?_, ?_, ?_⟩, ?_⟩
  · show drawCalls { st with isPainting := false } w h = []
    rw [drawCalls]
    by_cases hpf : ({ st with isPainting := false } : PainterState).paintFnPresent = false
    · rw [if_pos hpf]
    · rw [if_neg hpf]
      simp
  · rfl
  · rfl
  · rfl
  · intro ink x0 y0 p1 hpf hsel hprev hpos hx0 hy0 hw hh hb
    show drawCalls { st with isPainting := true } w h ≠ []
    have hcalls : drawCalls { st with isPainting := true } w h =
        (bresenham (u32ToI32 x0, u32ToI32 y0) (u32ToI32 p1.1, u32ToI32 p1.2)).flatMap
          fun q => drawAtCells w h (i32ToU32 q.1) (i32ToU32 q.2) st.brushSize := by
      simp [drawCalls, hpf, hsel, hprev, hpos]
    have hr1 : i32ToU32 (u32ToI32 x0) = x0 := i32ToU32_u32ToI32 x0 (by omega)
    have hr2 : i32ToU32 (u32ToI32 y0) = y0 := i32ToU32_u32ToI32 y0 (by omega)
    have hmem : (x0, y0) ∈
        (bresenham (u32ToI32 x0, u32ToI32 y0) (u32ToI32 p1.1, u32ToI32 p1.2)).flatMap
          fun q => drawAtCells w h (i32ToU32 q.1) (i32ToU32 q.2) st.brushSize := by
      rw [List.mem_flatMap]
      refine ⟨(u32ToI32 x0, u32ToI32 y0), start_mem_bresenham _ _, ?_⟩
      simp only [hr1, hr2]
      exact (mem_drawAtCells w h x0 y0 st.brushSize (x0, y0) hw hh hb).2
        ⟨hx0, hy0, by simp, by simp⟩
    rw [hcalls]
    exact List.ne_nil_of_mem hmem
  · intro hbtn
    constructor
    · show (if btn = MouseBtn.left then { st with isPainting := pr } else st) = st
      rw [if_neg hbtn]
    · show drawCalls (if btn = MouseBtn.left then { st with isPainting := pr } else st) w h =
        drawCalls st w h
      rw [if_neg hbtn]

/-- Witness for `painterMouse_spec`: a ready-to-paint 1×1 painter and a
right-button event. -/
theorem painterMouse_spec_witness :
    ((painterMouseInput
          (PainterState.mk [] true (some 1) none none none none 0
            (some (0, 0)) (some (0, 0)) false) 1 1 MouseBtn.left false).2 = []
      ∧ (painterMouseInput
          (PainterState.mk [] true (some 1) none none none none 0
            (some (0, 0)) (some (0, 0)) false) 1 1 MouseBtn.left false).1.isPainting = false)
    ∧ ((painterMouseInput
          (PainterState.mk [] true (some 1) none none none none 0
            (some (0, 0)) (some (0, 0)) false) 1 1 MouseBtn.left true).1.isPainting = true
      ∧ (painterMouseInput
          (PainterState.mk [] true (some 1) none none none none 0
            (some (0, 0)) (some (0, 0)) false) 1 1 MouseBtn.left true).2 =
          drawCalls (PainterState.mk [] true (some 1) none none none none 0
            (some (0, 0)) (some (0, 0)) true) 1 1
      ∧ (∀ ink x0 y0 p1,
          (PainterState.mk [] true (some 1) none none none none 0
            (some (0, 0)) (some (0, 0)) false).paintFnPresent = true →
          (PainterState.mk [] true (some 1) none none none none 0
            (some (0, 0)) (some (0, 0)) false).selected = some ink →
          (PainterState.mk [] true (some 1) none none none none 0
            (some (0, 0)) (some (0, 0)) false).mousePosPrev = some (x0, y0) →
          (PainterState.mk [] true (some 1) none none none none 0
            (some (0, 0)) (some (0, 0)) false).mousePos = some p1 →
          x0 < 1 → y0 < 1 → 1 ≤ 2 ^ 32 → 1 ≤ 2 ^ 32 →
          (PainterState.mk [] true (some 1) none none none none 0
            (some (0, 0)) (some (0, 0)) false).brushSize < 2 ^ 31 →
          (painterMouseInput
            (PainterState.mk [] true (some 1) none none none none 0
              (some (0, 0)) (some (0, 0)) false) 1 1 MouseBtn.left true).2 ≠ []))
    ∧ (MouseBtn.right ≠ MouseBtn.left →
        (painterMouseInput
          (PainterState.mk [] true (some 1) none none none none 0
            (some (0, 0)) (some (0, 0)) false) 1 1 MouseBtn.right false).1 =
          PainterState.mk [] true (some 1) none none none none 0
            (some (0, 0)) (some (0, 0)) false
        ∧ (painterMouseInput
            (PainterState.mk [] true (some 1) none none none none 0
              (some (0, 0)) (some (0, 0)) false) 1 1 MouseBtn.right false).2 =
            drawCalls (PainterState.mk [] true (some 1) none none none none 0
              (some (0, 0)) (some (0, 0)) false) 1 1) :=
  painterMouse_spec
    (PainterState.mk [] true (some 1) none none none none 0
      (some (0, 0)) (some (0, 0)) false) 1 1 MouseBtn.right false

/-! ## Resize path (`AppImpl::resize`, src/app/app_impl.rs)

The `f32` arithmetic of `aspect_adjusted_vertices` and
`update_grid_vertices` is modelled over `ℚ` with the same operation
structure. -/

/-- `Vertex` (position + texture coordinates). -/
structure VertexQ where
  px : ℚ
  py : ℚ
  tu : ℚ
  tv : ℚ
  deriving Repr, DecidableEq

/-- `LineVertex` (position + strength). -/
structure LineVertexQ where
  px : ℚ
  py : ℚ
  strength : ℚ
  deriving Repr, DecidableEq

/-- `positions_rectangle`: the four corner positions `[bottom-left,
bottom-right, top-left, top-right]` of a rectangle given by its top-left
and bottom-right corners. -/
def positionsRectangle (tl br : ℚ × ℚ) : List (ℚ × ℚ) :=
  [(tl.1, br.2), (br.1, br.2), (tl.1, tl.2), (br.1, tl.2)]

/-- `vertices_rectangle`: the textured quad. -/
def verticesRectangle (tl br : ℚ × ℚ) : List VertexQ :=
  match positionsRectangle tl br with
  | [a, b, c, d] =>
      [⟨a.1, a.2, 0, 1⟩, ⟨b.1, b.2, 1, 1⟩, ⟨c.1, c.2, 0, 0⟩, ⟨d.1, d.2, 1, 0⟩]
  | _ => []

/-- `line_vertices_rectangle`. -/
def lineVerticesRectangle (tl br : ℚ × ℚ) (strength : ℚ) : List LineVertexQ :=
  (positionsRectangle tl br).map fun p => ⟨p.1, p.2, strength⟩

/-- `update_grid_vertices`: the full grid vertex list after the in-place
writes, in block index order — the four border bars (strength 1), then
the `Gw-1` interior vertical and `Gh-1` interior horizontal bars
(strength 0.5). -/
def updateGridVertices (x y : ℚ) (worldWidth worldHeight : Nat)
    (halfLineWidth halfLineHeight : ℚ) : List LineVertexQ :=
  let x0 := -x
  let y0 := -y
  let x1 := x
  let y1 := y
  let w : ℚ := worldWidth
  let h : ℚ := worldHeight
  let vertical := fun (vx : Nat) (strength : ℚ) =>
    let p0 := ((worldWidth - vx : Nat) : ℚ) / w
    let p1 := (vx : ℚ) / w
    let lx := x0 * p0 + x1 * p1
    lineVerticesRectangle (lx - halfLineWidth, y1) (lx + halfLineWidth, y0) strength
  let horizontal := fun (vy : Nat) (strength : ℚ) =>
    let p0 := ((worldHeight - vy : Nat) : ℚ) / h
    let p1 := (vy : ℚ) / h
    let ly := y0 * p0 + y1 * p1
    lineVerticesRectangle (x0, ly + halfLineHeight) (x1, ly - halfLineHeight) strength
  vertical 0 1 ++ vertical worldWidth 1 ++ horizontal 0 1 ++ horizontal worldHeight 1
    ++ ((List.range (worldWidth - 1)).flatMap fun i => vertical (i + 1) (1 / 2))
    ++ ((List.range (worldHeight - 1)).flatMap fun i => horizontal (i + 1) (1 / 2))

/-- `aspect_adjusted_vertices`: the letterboxed quad vertices, the cursor
transform (`WorldTransform`) and the refreshed grid vertex list, from the
world aspect ratio, window size and grid size. -/
def aspectAdjustedVertices (worldAspect : ℚ) (winW winH : Nat)
    (worldWidth worldHeight : Nat) : List VertexQ × WorldTransform × List LineVertexQ :=
  let windowAspect : ℚ := (winW : ℚ) / (winH : ℚ)
  let xy : ℚ × ℚ :=
    if worldAspect < windowAspect then (worldAspect / windowAspect, 1)
    else (1, windowAspect / worldAspect)
  let p : ℚ := 999 / 1000
  let x := xy.1 * p
  let y := xy.2 * p
  let vertices := verticesRectangle (-x, y) (x, -y)
  let w : ℚ := winW
  let h : ℚ := winH
  let x0 := w * (1 - x) / 2
  let y0 := h * (1 - y) / 2
  let x1 := w - x0
  let y1 := h - y0
  let w1 := (x1 - x0) / (worldWidth : ℚ)
  let h1 := (y1 - y0) / (worldHeight : ℚ)
  let bounds : WorldTransform := ⟨x0, y0, x1, y1, w1, h1⟩
  let gv := updateGridVertices x y worldWidth worldHeight (1 / w) (1 / h)
  (vertices, bounds, gv)

/-- The resize-relevant state of `AppImpl`: window size, surface
configuration size, quad vertices, grid vertices and cursor transform,
plus the immutable world aspect and grid size. -/
structure AppRState where
  worldAspect : ℚ
  worldWidth : Nat
  worldHeight : Nat
  windowW : Nat
  windowH : Nat
  surfaceW : Nat
  surfaceH : Nat
  vertices : List VertexQ
  gridVertices : List LineVertexQ
  bounds : WorldTransform
  deriving Repr, DecidableEq

/-- `AppImpl::resize`: early-return on an unchanged window size; record a
zero size without touching surface/vertices/transform; otherwise
reconfigure the surface and recompute vertices, grid vertices and the
transform from the new size. -/
def AppRState.resize (s : AppRState) (newW newH : Nat) : AppRState :=
  if newW = s.windowW ∧ newH = s.windowH then s
  else
    let s1 := { s with windowW := newW, windowH := newH }
    if newW = 0 ∨ newH = 0 then s1
    else
      let r := aspectAdjustedVertices s.worldAspect newW newH s.worldWidth s.worldHeight
      { s1 with
          surfaceW := newW
          surfaceH := newH
          vertices := r.1
          bounds := r.2.1
          gridVertices := r.2.2 }

/-- C10: `resize` is a full no-op when the new size equals the stored
window size; when the new width or height is zero only the window size is
recorded (transform, grid vertices, quad vertices and surface
configuration unchanged); otherwise the surface is reconfigured and the
transform and vertex data recomputed from the new size. -/
theorem resize_spec (s : AppRState) (newW newH : Nat) :
    (newW = s.windowW → newH = s.windowH → s.resize newW newH = s)
    ∧ (¬(newW = s.windowW ∧ newH = s.windowH) → newW = 0 ∨ newH = 0 →
        s.resize newW newH = { s with windowW := newW, windowH := newH })
    ∧ (¬(newW = s.windowW ∧ newH = s.windowH) → newW ≠ 0 → newH ≠ 0 →
        s.resize newW newH =
          { s with
              windowW := newW
              windowH := newH
              surfaceW := newW
              surfaceH := newH
              vertices := (aspectAdjustedVertices s.worldAspect newW newH
                s.worldWidth s.worldHeight).1
              bounds := (aspectAdjustedVertices s.worldAspect newW newH
                s.worldWidth s.worldHeight).2.1
              gridVertices := (aspectAdjustedVertices s.worldAspect newW newH
                s.worldWidth s.worldHeight).2.2 }) := by
  refine ⟨?_, ?_, ?_⟩
  · intro h1 h2
    rw [AppRState.resize, if_pos ⟨h1, h2⟩]
  · intro hne hz
    rw [AppRState.resize, if_neg hne]
    simp only
    rw [if_pos hz]
  · intro hne hz1 hz2
    rw [AppRState.resize, if_neg hne]
    simp only
    rw [if_neg (by tauto)]

/-- Witness for `resize_spec`: resizing a concrete state to its current
100×100 window size is a full no-op. -/
theorem resize_spec_witness :
    (100 = (AppRState.mk 1 2 2 100 100 100 100 [] []
        (WorldTransform.mk 0 0 0 0 1 1)).windowW ∧
      100 = (AppRState.mk 1 2 2 100 100 100 100 [] []
        (WorldTransform.mk 0 0 0 0 1 1)).windowH)
    ∧ (AppRState.mk 1 2 2 100 100 100 100 [] [] (WorldTransform.mk 0 0 0 0 1 1)).resize
        100 100 = AppRState.mk 1 2 2 100 100 100 100 [] [] (WorldTransform.mk 0 0 0 0 1 1) :=
  ⟨⟨rfl, rfl⟩,
    (resize_spec (AppRState.mk 1 2 2 100 100 100 100 [] []
      (WorldTransform.mk 0 0 0 0 1 1)) 100 100).1 rfl rfl⟩

end CellsRenderer
